import Mathlib

/-!
Shallow embedding of `PokerRL/game/_/look_up_table.py` (PokerRL-Omaha).

Cards are modelled as naturals, numpy integer arrays as Lean lists (or
functions for flat index-addressed vectors), and the scipy `comb(..., exact=True)`
function as `Nat.choose`.  Components of the repository that the file under
`src/` calls but whose code is not part of `src/` (the C++ LUT backend wrapper,
`PokerRange.get_range_size`, the `Poker` constants) are modelled from the
specification and marked as such in their doc comments.
-/

namespace PokerLUT

/-- Model of python's `itertools.combinations(l, k)`: all `k`-element
subsequences of `l`, emitted in lexicographic order with respect to the order
of the input list (this is the documented behaviour of `itertools.combinations`).
Used by `_LutGetterPLO.get_idx_2_hole_card_LUT` (look_up_table.py line 275). -/
def combinations {α : Type} : Nat → List α → List (List α)
  | 0, _ => [[]]
  | _ + 1, [] => []
  | k + 1, a :: l => ((combinations k l).map (a :: ·)) ++ combinations (k + 1) l

theorem mem_combinations {α : Type} {k : Nat} {l xs : List α} :
    xs ∈ combinations k l ↔ List.Sublist xs l ∧ xs.length = k := by
  induction l generalizing k xs with
  | nil =>
    cases k with
    | zero =>
      simp only [combinations, List.mem_singleton]
      constructor
      · rintro rfl; exact ⟨List.Sublist.refl _, rfl⟩
      · rintro ⟨hs, hl⟩; exact List.eq_nil_of_length_eq_zero hl
    | succ k =>
      simp only [combinations, List.not_mem_nil, false_iff, not_and]
      intro hs hl
      have := List.sublist_nil.mp hs
      subst this
      simp at hl
  | cons a t ih =>
    cases k with
    | zero =>
      simp only [combinations, List.mem_singleton]
      constructor
      · rintro rfl; exact ⟨List.nil_sublist _, rfl⟩
      · rintro ⟨hs, hl⟩; exact List.eq_nil_of_length_eq_zero hl
    | succ k =>
      simp only [combinations, List.mem_append, List.mem_map]
      constructor
      · rintro (⟨zs, hz, rfl⟩ | h)
        · have hzs := ih.mp hz
          exact ⟨List.Sublist.cons₂ a hzs.1, by simp [hzs.2]⟩
        · have hx := ih.mp h
          exact ⟨List.Sublist.cons a hx.1, hx.2⟩
      · rintro ⟨hs, hl⟩
        rcases List.sublist_cons_iff.mp hs with h | ⟨r, rfl, hr⟩
        · right; exact ih.mpr ⟨h, hl⟩
        · left; exact ⟨r, ih.mpr ⟨hr, by simpa using hl⟩, rfl⟩

theorem length_combinations {α : Type} (k : Nat) (l : List α) :
    (combinations k l).length = Nat.choose l.length k := by
  induction l generalizing k with
  | nil => cases k <;> simp [combinations]
  | cons a t ih =>
    cases k with
    | zero => simp [combinations]
    | succ k =>
      simp only [combinations, List.length_append, List.length_map, ih,
        List.length_cons, Nat.choose_succ_succ]

theorem nodup_combinations {α : Type} {k : Nat} {l : List α} (hl : l.Nodup) :
    (combinations k l).Nodup := by
  induction l generalizing k with
  | nil => cases k <;> simp [combinations]
  | cons a t ih =>
    have hat : a ∉ t := (List.nodup_cons.mp hl).1
    have ht : t.Nodup := (List.nodup_cons.mp hl).2
    cases k with
    | zero => simp [combinations]
    | succ k =>
      rw [combinations]
      refine List.Nodup.append ?_ (ih ht) ?_
      · exact (ih ht).map (fun x y h => by injection h)
      · rw [List.disjoint_left]
        rintro x hx hx'
        rcases List.mem_map.mp hx with ⟨zs, _, rfl⟩
        have := (mem_combinations.mp hx').1.subset (List.mem_cons_self a zs)
        exact hat this

theorem pairwise_lex_combinations {k : Nat} {l : List Nat}
    (hl : l.Sorted (· < ·)) :
    (combinations k l).Pairwise (List.Lex (· < ·)) := by
  induction l generalizing k with
  | nil => cases k <;> simp [combinations]
  | cons a t ih =>
    cases k with
    | zero => simp [combinations]
    | succ k =>
      rw [combinations, List.pairwise_append]
      refine ⟨?_, ih hl.of_cons, ?_⟩
      · rw [List.pairwise_map]
        exact (ih hl.of_cons).imp (fun h => List.Lex.cons h)
      · intro x hx y hy
        rcases List.mem_map.mp hx with ⟨zs, _, rfl⟩
        have hy' := mem_combinations.mp hy
        cases y with
        | nil => simp at hy'
        | cons b ys =>
          have hb : b ∈ t := hy'.1.subset (List.mem_cons_self b ys)
          exact List.Lex.rel (List.rel_of_sorted_cons hl b hb)

theorem countP_combinations_mem {α : Type} [DecidableEq α] {c : α} :
    ∀ {k : Nat} {l : List α}, l.Nodup → c ∈ l → 1 ≤ k →
    (combinations k l).countP (fun h => decide (c ∈ h)) =
      Nat.choose (l.length - 1) (k - 1) := by
  intro k l
  induction l generalizing k with
  | nil => intro _ hc; exact absurd hc (List.not_mem_nil c)
  | cons a t ih =>
    intro hnd hc hk
    have hat : a ∉ t := (List.nodup_cons.mp hnd).1
    have ht : t.Nodup := (List.nodup_cons.mp hnd).2
    obtain ⟨k', rfl⟩ : ∃ k', k = k' + 1 := ⟨k - 1, by omega⟩
    rw [combinations, List.countP_append, List.countP_map]
    by_cases hca : c = a
    · subst hca
      have h1 : (combinations k' t).countP
          ((fun h => decide (c ∈ h)) ∘ (c :: ·)) = (combinations k' t).length := by
        apply List.countP_eq_length.mpr
        intro zs _
        simp
      have h2 : (combinations (k' + 1) t).countP (fun h => decide (c ∈ h)) = 0 := by
        apply List.countP_eq_zero.mpr
        intro zs hzs
        have hsub := (mem_combinations.mp hzs).1
        simp only [decide_eq_true_eq]
        intro hmem
        exact hat (hsub.subset hmem)
      rw [h1, h2, length_combinations]
      simp
    · have hct : c ∈ t := by
        rcases List.mem_cons.mp hc with h | h
        · exact absurd h hca
        · exact h
      have htlen : 1 ≤ t.length := List.length_pos.mpr (List.ne_nil_of_mem hct)
      have hpred : ((fun h => decide (c ∈ h)) ∘ (a :: ·)) =
          (fun h : List α => decide (c ∈ h)) := by
        funext zs
        simp [hca]
      rw [hpred]
      cases k' with
      | zero =>
        have h1 : (combinations 0 t).countP (fun h => decide (c ∈ h)) = 0 := by
          simp [combinations]
        rw [h1, ih ht hct (by omega)]
        simp
      | succ k'' =>
        rw [ih ht hct (by omega), ih ht hct (by omega)]
        obtain ⟨m, hm⟩ : ∃ m, t.length = m + 1 := ⟨t.length - 1, by omega⟩
        simp only [hm, List.length_cons, Nat.add_sub_cancel, Nat.succ_sub_one]
        rw [Nat.choose_succ_succ]

/-- The `k`-fold nested python loop pattern
`for i1 in range(lo, n): for i2 in range(i1+1, n): ...` collecting the tuples
`[i1, ..., ik]` in loop order.  `ascFrom (k+1) lo n` runs one loop level. -/
def ascFrom : Nat → Nat → Nat → List (List Nat)
  | 0, _, _ => [[]]
  | k + 1, lo, n =>
    (List.range' lo (n - lo)).flatMap fun i => (ascFrom k (i + 1) n).map (i :: ·)

theorem ascFrom_eq_combinations (k : Nat) :
    ∀ (n lo : Nat), ascFrom k lo n = combinations k (List.range' lo (n - lo)) := by
  induction k with
  | zero => intro n lo; simp [ascFrom, combinations]
  | succ k ih =>
    intro n
    suffices h : ∀ m lo, n - lo = m →
        ascFrom (k + 1) lo n = combinations (k + 1) (List.range' lo m) by
      intro lo
      exact h (n - lo) lo rfl
    intro m
    induction m with
    | zero =>
      intro lo hm
      rw [ascFrom, hm]
      simp [combinations]
    | succ m ihm =>
      intro lo hm
      have h1 : n - (lo + 1) = m := by omega
      rw [ascFrom, hm, List.range'_succ, List.flatMap_cons]
      have h2 : (List.range' (lo + 1) m).flatMap
            (fun i => (ascFrom k (i + 1) n).map (i :: ·)) =
          ascFrom (k + 1) (lo + 1) n := by
        rw [ascFrom, h1]
      rw [h2, ihm (lo + 1) h1, ih n (lo + 1), h1]
      simp [combinations]

/-- Every strictly ascending list of naturals below `n`, all of them at least
`lo`, is a subsequence of `range' lo (n - lo)`. -/
theorem sublist_range'_of_sorted {h : List Nat} :
    ∀ {lo n : Nat}, h.Sorted (· < ·) → (∀ x ∈ h, lo ≤ x ∧ x < n) →
    List.Sublist h (List.range' lo (n - lo)) := by
  induction h with
  | nil => intro lo n _ _; exact List.nil_sublist _
  | cons a t ih =>
    intro lo n hs hb
    have ha := hb a (List.mem_cons_self a t)
    have ht : ∀ x ∈ t, a + 1 ≤ x ∧ x < n := by
      intro x hx
      exact ⟨List.rel_of_sorted_cons hs x hx, (hb x (List.mem_cons.mpr (Or.inr hx))).2⟩
    have htail : List.Sublist t (List.range' (a + 1) (n - (a + 1))) :=
      ih hs.of_cons ht
    have hsplit : List.range' lo (n - lo) =
        List.range' lo (a - lo) ++ a :: List.range' (a + 1) (n - (a + 1)) := by
      have h1 : n - (a + 1) + 1 = n - a := by omega
      have h2 : a :: List.range' (a + 1) (n - (a + 1)) = List.range' a (n - a) := by
        rw [← h1, List.range'_succ]
      rw [h2]
      have h3 := List.range'_append lo (a - lo) (n - a) 1
      simp only [Nat.one_mul] at h3
      have h4 : lo + (a - lo) = a := by omega
      have h5 : n - a + (a - lo) = n - lo := by omega
      rw [h4, h5] at h3
      exact h3.symm
    rw [hsplit]
    exact List.Sublist.append (List.nil_sublist _) (List.Sublist.cons₂ a htail)

theorem sublist_range_of_sorted {h : List Nat} {n : Nat}
    (hs : h.Sorted (· < ·)) (hb : ∀ x ∈ h, x < n) :
    List.Sublist h (List.range n) := by
  have := @sublist_range'_of_sorted h 0 n hs
    (fun x hx => ⟨Nat.zero_le x, hb x hx⟩)
  simpa [List.range_eq_range'] using this

/-- The betting rounds (`Poker.PREFLOP` etc. in the external `Poker` class). -/
inductive Round
  | PREFLOP
  | FLOP
  | TURN
  | RIVER
deriving DecidableEq, Repr

/-- The external rules/constants object (`env_cls.RULES`) a getter is
constructed with: only the constants `look_up_table.py` reads. -/
structure Rules where
  N_RANKS : Nat
  N_SUITS : Nat
  N_HOLE_CARDS : Nat
  N_CARDS_IN_DECK : Nat
  N_FLOP_CARDS : Nat
  N_TURN_CARDS : Nat
  N_RIVER_CARDS : Nat
  SUITS_MATTER : Bool
  RANGE_SIZE : Nat
  ALL_ROUNDS_LIST : List Round
  ROUND_BEFORE : Round → Round

namespace Poker

/-- Modelled from the spec: `Poker.CARD_NOT_DEALT_TOKEN_1D` is defined outside
`src/`; the spec calls it "a reserved 1D value ... denoting the absence of a
card".  Modelled as a negative value outside every valid card range; the exact
value is immaterial to the claims. -/
def CARD_NOT_DEALT_TOKEN_1D : Int := -127

/-- Modelled from the spec: the reserved 2D pair denoting "not dealt". -/
def CARD_NOT_DEALT_TOKEN_2D : Int × Int := (CARD_NOT_DEALT_TOKEN_1D, CARD_NOT_DEALT_TOKEN_1D)

end Poker

/-- Modelled from the spec: `PokerRange.get_range_size` is defined outside
`src/`; per the spec "RANGE_SIZE = C(N_CARDS_IN_DECK, N_HOLE_CARDS)", and the
source comment at line 95 calls it "actually a general combinatorial
function", i.e. n choose k. -/
def PokerRange.get_range_size (n_hole_cards : Nat) (n_cards_in_deck : Nat) : Nat :=
  Nat.choose n_cards_in_deck n_hole_cards

namespace LutGetterBase

/-- `_LutGetterBase.get_n_cards_out_at_LUT` (look_up_table.py lines 68-74). -/
def get_n_cards_out_at_LUT (rules : Rules) : Round → Nat
  | .PREFLOP => 0
  | .FLOP => rules.N_FLOP_CARDS
  | .TURN => rules.N_FLOP_CARDS + rules.N_TURN_CARDS
  | .RIVER => rules.N_FLOP_CARDS + rules.N_TURN_CARDS + rules.N_RIVER_CARDS

/-- `_LutGetterBase.get_n_cards_dealt_in_transition_to_LUT` (lines 76-82). -/
def get_n_cards_dealt_in_transition_to_LUT (rules : Rules) : Round → Nat
  | .PREFLOP => 0
  | .FLOP => rules.N_FLOP_CARDS
  | .TURN => rules.N_TURN_CARDS
  | .RIVER => rules.N_RIVER_CARDS

/-- `_LutGetterBase.get_n_boards_LUT` (lines 61-66): the dict is built over
`ALL_ROUNDS_LIST`; this is the value stored for round `r`.  scipy's
`comb(N, k, exact=True, repetition=False)` is exact integer n-choose-k. -/
def get_n_boards_LUT (rules : Rules) (r : Round) : Nat :=
  Nat.choose (rules.N_RANKS * rules.N_SUITS)
    (get_n_cards_dealt_in_transition_to_LUT rules r)

/-- `_LutGetterBase.get_n_board_branches_LUT` (lines 84-98): value stored for
round `r` (the dict starts as `{PREFLOP: 0}` and is filled for the other
rounds of `ALL_ROUNDS_LIST`). -/
def get_n_board_branches_LUT (rules : Rules) (r : Round) : Nat :=
  if r = .PREFLOP then 0
  else
    PokerRange.get_range_size
      (get_n_cards_dealt_in_transition_to_LUT rules r)
      (rules.N_CARDS_IN_DECK -
        get_n_cards_out_at_LUT rules (rules.ROUND_BEFORE r) -
        rules.N_HOLE_CARDS)

/-- The inner `for c_id in range(N_HOLE_CARDS)` loop of
`_LutGetterBase.get_range_idx_to_private_obs_LUT` (lines 45-55), acting on a
flat index-addressed vector (the numpy row, modelled as a function).
`hand2d c_id` is `hc_1d_to_2d_lut[range_idx_to_hc_lut[range_idx, c_id]]`. -/
def privObsLoop (rules : Rules) (preflop_suit_bucketing : Bool)
    (hand2d : Nat → Nat × Nat) : Nat → (Nat → Int) → (Nat → Int)
  | 0, v => v
  | cId + 1, v =>
    let D := rules.N_SUITS + rules.N_RANKS
    let v0 := privObsLoop rules preflop_suit_bucketing hand2d cId v
    let card := hand2d cId
    let v1 := Function.update v0 (D * cId + card.1) 1
    if rules.SUITS_MATTER && !preflop_suit_bucketing then
      Function.update v1 (D * cId + rules.N_RANKS + card.2) 1
    else v1

/-- One row (`priv_o`) of `_LutGetterBase.get_range_idx_to_private_obs_LUT`
(lines 34-59): `np.zeros` start, then the card loop. -/
def get_range_idx_to_private_obs_row (rules : Rules)
    (preflop_suit_bucketing : Bool) (hand2d : Nat → Nat × Nat) : Nat → Int :=
  privObsLoop rules preflop_suit_bucketing hand2d rules.N_HOLE_CARDS (fun _ => 0)

end LutGetterBase

namespace LutGetterLeduc

/-- `_LutGetterLeduc._get_1d_card` (lines 173-181). -/
def get_1d_card (rules : Rules) (card_2d : Nat × Nat) : Nat :=
  card_2d.1 * rules.N_SUITS + card_2d.2

/-- `_LutGetterLeduc._get_2d_card` (lines 183-194). -/
def get_2d_card (rules : Rules) (card_1d : Nat) : Nat × Nat :=
  (card_1d / rules.N_SUITS, card_1d % rules.N_SUITS)

/-- `_LutGetterLeduc.get_idx_2_hole_card_LUT` (lines 162-164):
`np.expand_dims(np.arange(N_CARDS_IN_DECK), axis=1)`. -/
def get_idx_2_hole_card_LUT (n : Nat) : List (List Nat) :=
  (List.range n).map (fun c => [c])

/-- `_LutGetterLeduc.get_hole_card_2_idx_LUT` (lines 166-168): same array;
the holder reads it as `lut[c1, 0]`. -/
def get_hole_card_2_idx_LUT (n : Nat) : List (List Nat) :=
  (List.range n).map (fun c => [c])

end LutGetterLeduc

namespace CppLibHoldemLuts

/-- Modelled from the spec: `CppLibHoldemLuts.get_idx_2_hole_card_lut` (the
C++ backend wrapper, not under `src/`).  Per spec section 4.2, for `k = 2`:
"enumerate all ordered pairs (c1 < c2) with c1 ranging over [0, N) and c2 over
(c1, N), assigning indices in that nested order", i.e. the lexicographic
enumeration of ascending pairs. -/
def get_idx_2_hole_card_lut (n : Nat) : List (List Nat) :=
  combinations 2 (List.range n)

/-- Modelled from the spec: `CppLibHoldemLuts.get_hole_card_2_idx_lut`, the
inverse table of `get_idx_2_hole_card_lut` over ascending pairs (spec section
4.2 and section 6, backend round-trip contract); unfilled cells keep the
sentinel -2 as in the sibling generators. -/
def get_hole_card_2_idx_lut (n : Nat) (h : List Nat) : Int :=
  if h ∈ combinations 2 (List.range n) then
    ((combinations 2 (List.range n)).indexOf h : Int)
  else -2

end CppLibHoldemLuts

namespace LutGetterHoldem

/-- One row (card `c`) of `_LutGetterHoldem.get_card_in_what_range_idxs_LUT`
(lines 127-140): scan all `range_idx in range(RANGE_SIZE)` in order and keep
those whose hole cards contain `c`.  `rules.RANGE_SIZE` is external; per the
spec it is `C(N_CARDS_IN_DECK, N_HOLE_CARDS)` = the table length. -/
def card_in_what_range_idxs_row (n c : Nat) : List Nat :=
  (List.range (CppLibHoldemLuts.get_idx_2_hole_card_lut n).length).filter
    (fun i => decide (c ∈ (CppLibHoldemLuts.get_idx_2_hole_card_lut n).getD i []))

end LutGetterHoldem

namespace LutGetterPLO

/-- `_LutGetterPLO.get_idx_2_hole_card_LUT` (lines 269-278):
`itertools.combinations(np.arange(0, 52), 4)` reshaped to rows of 4. -/
def get_idx_2_hole_card_LUT : List (List Nat) :=
  combinations 4 (List.range 52)

/-- The four nested loops of `_LutGetterPLO.get_hole_card_2_idx_LUT`
(lines 288-294) visit exactly these index tuples, in this order; the running
counter `n` assigns each tuple its position in this list. -/
def ploEnum (cmax : Nat) : List (List Nat) :=
  (List.range cmax).flatMap fun i1 =>
    (List.range' (i1 + 1) (cmax - (i1 + 1))).flatMap fun i2 =>
      (List.range' (i2 + 1) (cmax - (i2 + 1))).flatMap fun i3 =>
        (List.range' (i3 + 1) (cmax - (i3 + 1))).map fun i4 => [i1, i2, i3, i4]

/-- `_LutGetterPLO.get_hole_card_2_idx_LUT` (lines 280-295): the cell
`lut[i1, i2, i3, i4]` after construction -- the loop counter value for visited
tuples, the `np.full` fill value -2 for every other cell. -/
def get_hole_card_2_idx_LUT (cmax : Nat) (h : List Nat) : Int :=
  if h ∈ ploEnum cmax then ((ploEnum cmax).indexOf h : Int) else -2

/-- One row (card `c`) of `_LutGetterPLO.get_card_in_what_range_idxs_LUT`
(lines 297-309): `np.where(c == _idx2hc_lut)` returns the row indexes (in
ascending row order) whose hole cards contain `c`. -/
def card_in_what_range_idxs_row (c : Nat) : List Nat :=
  (List.range get_idx_2_hole_card_LUT.length).filter
    (fun i => decide (c ∈ get_idx_2_hole_card_LUT.getD i []))

/-- One row of `_LutGetterPLO.get_range_idx_to_private_obs_LUT`
(lines 204-254): `priv_o = np.empty(...)` starts from unspecified buffer
contents (`garbage`), then the unrolled writes set the rank bit of each of the
four cards, and -- in the non-bucketed branch only -- each suit bit. -/
def get_range_idx_to_private_obs_row (rules : Rules)
    (preflop_suit_bucketing : Bool) (garbage : Nat → Int)
    (element : Nat → Nat × Nat) : Nat → Int :=
  let D := rules.N_SUITS + rules.N_RANKS
  if !preflop_suit_bucketing then
    Function.update (Function.update (Function.update (Function.update
      (Function.update (Function.update (Function.update (Function.update
        garbage
        (D * 0 + (element 0).1) 1) (D * 0 + rules.N_RANKS + (element 0).2) 1)
        (D * 1 + (element 1).1) 1) (D * 1 + rules.N_RANKS + (element 1).2) 1)
        (D * 2 + (element 2).1) 1) (D * 2 + rules.N_RANKS + (element 2).2) 1)
        (D * 3 + (element 3).1) 1) (D * 3 + rules.N_RANKS + (element 3).2) 1
  else
    Function.update (Function.update (Function.update (Function.update
      garbage
      (D * 0 + (element 0).1) 1) (D * 1 + (element 1).1) 1)
      (D * 2 + (element 2).1) 1) (D * 3 + (element 3).1) 1

end LutGetterPLO

namespace LutHolderBase

/-- `_LutHolderBase.get_1d_cards` (lines 358-373): empty input short-circuits
to an empty array; otherwise rows whose rank slot holds the not-dealt token
map to the token (the copy `aa` zeroes token slots so that the numpy gather
stays in bounds), every other row is looked up in `LUT_2DCARD_2_1DCARD`. -/
def get_1d_cards (lut_2dcard_2_1dcard : Int → Int → Int)
    (cards_2d : List (Int × Int)) : List Int :=
  if cards_2d.length = 0 then []
  else
    cards_2d.map fun card =>
      let a0 := if card.1 = Poker.CARD_NOT_DEALT_TOKEN_1D then 0 else card.1
      let a1 := if card.2 = Poker.CARD_NOT_DEALT_TOKEN_1D then 0 else card.2
      if card.1 = Poker.CARD_NOT_DEALT_TOKEN_1D then Poker.CARD_NOT_DEALT_TOKEN_1D
      else lut_2dcard_2_1dcard a0 a1

/-- `_LutHolderBase.get_2d_cards` (lines 375-391): empty input short-circuits
to an empty array; otherwise token entries become the 2D token pair and every
other entry is looked up in `LUT_1DCARD_2_2DCARD` (again via the zeroed copy
`aa`). -/
def get_2d_cards (lut_1dcard_2_2dcard : Int → Int × Int)
    (cards_1d : List Int) : List (Int × Int) :=
  if cards_1d.length = 0 then []
  else
    cards_1d.map fun card =>
      let a := if card = Poker.CARD_NOT_DEALT_TOKEN_1D then 0 else card
      if card = Poker.CARD_NOT_DEALT_TOKEN_1D then Poker.CARD_NOT_DEALT_TOKEN_2D
      else lut_1dcard_2_2dcard a

end LutHolderBase

namespace LutHolderHoldem

/-- `LutHolderHoldem.get_range_idx_from_hole_cards` (lines 428-436):
convert both 2D cards to 1D via `LUT_2DCARD_2_1DCARD`, order them with
min/max, and read `LUT_HOLE_CARDS_2_IDX[c1, c2]`. -/
def get_range_idx_from_hole_cards (lut_2dcard_2_1dcard : Nat → Nat → Nat)
    (lut_hole_cards_2_idx : Nat → Nat → Int)
    (hole_cards_2d : (Nat × Nat) × (Nat × Nat)) : Int :=
  let c1' := lut_2dcard_2_1dcard hole_cards_2d.1.1 hole_cards_2d.1.2
  let c2' := lut_2dcard_2_1dcard hole_cards_2d.2.1 hole_cards_2d.2.2
  lut_hole_cards_2_idx (min c1' c2') (max c1' c2')

end LutHolderHoldem

namespace LutHolderPLO

/-- `LutHolderPLO.get_range_idx_from_hole_cards` (lines 453-461): convert
every 2D card to 1D, `list.sort()` the ids ascending (modelled by a stable
sort), and read `LUT_HOLE_CARDS_2_IDX[c1, c2, c3, c4]`. -/
def get_range_idx_from_hole_cards (lut_2dcard_2_1dcard : Nat → Nat → Nat)
    (lut_hole_cards_2_idx : List Nat → Int)
    (hole_cards_2d : List (Nat × Nat)) : Int :=
  lut_hole_cards_2_idx
    (List.insertionSort (· ≤ ·)
      (hole_cards_2d.map fun c => lut_2dcard_2_1dcard c.1 c.2))

end LutHolderPLO

theorem flatMap_singleton_eq_map {α β : Type} (l : List α) (f : α → β) :
    (l.flatMap fun x => [f x]) = l.map f := by
  induction l with
  | nil => rfl
  | cons a t ih => simp [ih]

theorem ploEnum_eq (n : Nat) :
    LutGetterPLO.ploEnum n = combinations 4 (List.range n) := by
  have h1 : LutGetterPLO.ploEnum n = ascFrom 4 0 n := by
    simp only [LutGetterPLO.ploEnum, ascFrom, List.map_flatMap, List.map_map,
      Function.comp_def, Nat.sub_zero, List.range_eq_range', List.map_cons,
      List.map_nil, flatMap_singleton_eq_map]
  rw [h1, ascFrom_eq_combinations, Nat.sub_zero, ← List.range_eq_range']

theorem indexOf_getElem_of_nodup {α : Type} [BEq α] [LawfulBEq α] {l : List α}
    (hn : l.Nodup) : ∀ {i : Nat} (h : i < l.length), l.indexOf l[i] = i := by
  induction l with
  | nil => intro i h; simp at h
  | cons a t ih =>
    intro i h
    cases i with
    | zero => simp [List.indexOf_cons]
    | succ i =>
      have hat : a ∉ t := (List.nodup_cons.mp hn).1
      have hi : i < t.length := by simpa using h
      have hne : (a == t[i]) = false := by
        rw [beq_eq_false_iff_ne]
        intro hh
        exact hat (hh ▸ List.getElem_mem hi)
      simp only [List.getElem_cons_succ, List.indexOf_cons, hne, cond_false]
      rw [ih (List.nodup_cons.mp hn).2 hi]

theorem indexOf_lt_length_of_mem {α : Type} [BEq α] [LawfulBEq α] {a : α}
    {l : List α} (h : a ∈ l) : l.indexOf a < l.length := by
  induction l with
  | nil => simp at h
  | cons b t ih =>
    rw [List.indexOf_cons]
    cases hb : b == a with
    | true => simp
    | false =>
      have : a ∈ t := by
        rcases List.mem_cons.mp h with rfl | ht
        · rw [beq_self_eq_true] at hb; exact absurd hb (by simp)
        · exact ht
      simpa using ih this

theorem getD_indexOf_of_mem {α : Type} [BEq α] [LawfulBEq α] {a : α}
    {l : List α} (h : a ∈ l) (d : α) : l.getD (l.indexOf a) d = a := by
  induction l with
  | nil => simp at h
  | cons b t ih =>
    cases hb : b == a with
    | true => simp [List.indexOf_cons, hb, eq_of_beq hb]
    | false =>
      have hmem : a ∈ t := by
        rcases List.mem_cons.mp h with rfl | ht
        · rw [beq_self_eq_true] at hb; exact absurd hb (by simp)
        · exact ht
      simp only [List.indexOf_cons, hb, cond_false, List.getD_cons_succ]
      exact ih hmem

theorem combos_indexOf_getD {n k i : Nat}
    (hi : i < (combinations k (List.range n)).length) :
    (combinations k (List.range n)).indexOf
      ((combinations k (List.range n)).getD i []) = i := by
  rw [List.getD_eq_getElem _ _ hi]
  exact indexOf_getElem_of_nodup (nodup_combinations (List.nodup_range n)) hi

theorem mem_combinations_range {n k : Nat} {h : List Nat}
    (hs : h.Sorted (· < ·)) (hlen : h.length = k) (hb : ∀ x ∈ h, x < n) :
    h ∈ combinations k (List.range n) :=
  mem_combinations.mpr ⟨sublist_range_of_sorted hs hb, hlen⟩

theorem combos_getD_indexOf {n k : Nat} {h : List Nat}
    (hmem : h ∈ combinations k (List.range n)) :
    (combinations k (List.range n)).getD
      ((combinations k (List.range n)).indexOf h) [] = h :=
  getD_indexOf_of_mem hmem []

/-- The rules constants of the standard two-hole-card 52-card variant
(`HoldemRules`): 13 ranks, 4 suits, 3/1/1 board cards. -/
def holdemRules : Rules where
  N_RANKS := 13
  N_SUITS := 4
  N_HOLE_CARDS := 2
  N_CARDS_IN_DECK := 52
  N_FLOP_CARDS := 3
  N_TURN_CARDS := 1
  N_RIVER_CARDS := 1
  SUITS_MATTER := true
  RANGE_SIZE := 1326
  ALL_ROUNDS_LIST := [.PREFLOP, .FLOP, .TURN, .RIVER]
  ROUND_BEFORE := fun r => match r with
    | .PREFLOP => .PREFLOP
    | .FLOP => .PREFLOP
    | .TURN => .FLOP
    | .RIVER => .TURN

/-- The rules constants of the four-hole-card 52-card variant (`PLORules`). -/
def ploRules : Rules where
  N_RANKS := 13
  N_SUITS := 4
  N_HOLE_CARDS := 4
  N_CARDS_IN_DECK := 52
  N_FLOP_CARDS := 3
  N_TURN_CARDS := 1
  N_RIVER_CARDS := 1
  SUITS_MATTER := true
  RANGE_SIZE := 270725
  ALL_ROUNDS_LIST := [.PREFLOP, .FLOP, .TURN, .RIVER]
  ROUND_BEFORE := fun r => match r with
    | .PREFLOP => .PREFLOP
    | .FLOP => .PREFLOP
    | .TURN => .FLOP
    | .RIVER => .TURN

/-- The rules constants of the single-hole-card toy variant (`LeducRules`):
3 ranks, 2 suits, deck size 6, one board card. -/
def leducRules : Rules where
  N_RANKS := 3
  N_SUITS := 2
  N_HOLE_CARDS := 1
  N_CARDS_IN_DECK := 6
  N_FLOP_CARDS := 1
  N_TURN_CARDS := 0
  N_RIVER_CARDS := 0
  SUITS_MATTER := false
  RANGE_SIZE := 6
  ALL_ROUNDS_LIST := [.PREFLOP, .FLOP]
  ROUND_BEFORE := fun _ => .PREFLOP

/-- C1: for every variant the hole-card indexing is a bijection.  PLO (from
the source: `itertools.combinations` table vs. the nested-loop inverse table)
and Leduc are proved from `src/`; the two-card tables come from the C++
backend wrapper absent from `src/` and are modelled from the spec's
lexicographic ascending-pair enumeration.  Forward: table row `i` looked up in
the inverse table gives `i`; backward: every ascending tuple of distinct card
ids round-trips; and each idx-to-hole-card table is lexicographically
ordered. -/
theorem C1_hole_card_indexing_bijection :
    ((∀ i, i < LutGetterPLO.get_idx_2_hole_card_LUT.length →
        LutGetterPLO.get_hole_card_2_idx_LUT 52
          (LutGetterPLO.get_idx_2_hole_card_LUT.getD i []) = (i : Int)) ∧
      (∀ h : List Nat, h.Sorted (· < ·) → h.length = 4 → (∀ x ∈ h, x < 52) →
        LutGetterPLO.get_idx_2_hole_card_LUT.getD
          (LutGetterPLO.get_hole_card_2_idx_LUT 52 h).toNat [] = h) ∧
      LutGetterPLO.get_idx_2_hole_card_LUT.length = Nat.choose 52 4 ∧
      LutGetterPLO.get_idx_2_hole_card_LUT.Pairwise (List.Lex (· < ·))) ∧
    (∀ n : Nat,
      (∀ i, i < (CppLibHoldemLuts.get_idx_2_hole_card_lut n).length →
        CppLibHoldemLuts.get_hole_card_2_idx_lut n
          ((CppLibHoldemLuts.get_idx_2_hole_card_lut n).getD i []) = (i : Int)) ∧
      (∀ h : List Nat, h.Sorted (· < ·) → h.length = 2 → (∀ x ∈ h, x < n) →
        (CppLibHoldemLuts.get_idx_2_hole_card_lut n).getD
          (CppLibHoldemLuts.get_hole_card_2_idx_lut n h).toNat [] = h) ∧
      (CppLibHoldemLuts.get_idx_2_hole_card_lut n).length = Nat.choose n 2 ∧
      (CppLibHoldemLuts.get_idx_2_hole_card_lut n).Pairwise (List.Lex (· < ·))) ∧
    (∀ n c, c < n →
      (LutGetterLeduc.get_idx_2_hole_card_LUT n).getD c [] = [c] ∧
      ((LutGetterLeduc.get_hole_card_2_idx_LUT n).getD c []).getD 0 0 = c ∧
      (LutGetterLeduc.get_idx_2_hole_card_LUT n).Pairwise (List.Lex (· < ·))) := by
  refine ⟨⟨?_, ?_, ?_, ?_⟩, ?_, ?_⟩
  · intro i hi
    rw [LutGetterPLO.get_hole_card_2_idx_LUT, ploEnum_eq]
    rw [LutGetterPLO.get_idx_2_hole_card_LUT] at hi ⊢
    have hmem : (combinations 4 (List.range 52)).getD i [] ∈
        combinations 4 (List.range 52) := by
      rw [List.getD_eq_getElem _ _ hi]
      exact List.getElem_mem hi
    rw [if_pos hmem, combos_indexOf_getD hi]
  · intro h hs hlen hb
    rw [LutGetterPLO.get_hole_card_2_idx_LUT, ploEnum_eq]
    have hmem := mem_combinations_range hs hlen hb
    rw [if_pos hmem, Int.toNat_natCast, LutGetterPLO.get_idx_2_hole_card_LUT]
    exact combos_getD_indexOf hmem
  · rw [LutGetterPLO.get_idx_2_hole_card_LUT, length_combinations, List.length_range]
  · exact pairwise_lex_combinations (List.sorted_lt_range 52)
  · intro n
    refine ⟨?_, ?_, ?_, ?_⟩
    · intro i hi
      rw [CppLibHoldemLuts.get_hole_card_2_idx_lut]
      rw [CppLibHoldemLuts.get_idx_2_hole_card_lut] at hi ⊢
      have hmem : (combinations 2 (List.range n)).getD i [] ∈
          combinations 2 (List.range n) := by
        rw [List.getD_eq_getElem _ _ hi]
        exact List.getElem_mem hi
      rw [if_pos hmem, combos_indexOf_getD hi]
    · intro h hs hlen hb
      rw [CppLibHoldemLuts.get_hole_card_2_idx_lut]
      have hmem := mem_combinations_range hs hlen hb
      rw [if_pos hmem, Int.toNat_natCast, CppLibHoldemLuts.get_idx_2_hole_card_lut]
      exact combos_getD_indexOf hmem
    · rw [CppLibHoldemLuts.get_idx_2_hole_card_lut, length_combinations, List.length_range]
    · exact pairwise_lex_combinations (List.sorted_lt_range n)
  · intro n c hc
    have hlen : c < ((List.range n).map (fun c => [c])).length := by
      simpa using hc
    refine ⟨?_, ?_, ?_⟩
    · rw [LutGetterLeduc.get_idx_2_hole_card_LUT, List.getD_eq_getElem _ _ hlen]
      simp
    · rw [LutGetterLeduc.get_hole_card_2_idx_LUT, List.getD_eq_getElem _ _ hlen]
      simp
    · rw [LutGetterLeduc.get_idx_2_hole_card_LUT, List.pairwise_map]
      exact (List.pairwise_lt_range n).imp (fun h => List.Lex.rel h)

/-- Witness for C1: concrete instances -- the first PLO table row round-trips
(index 0), a concrete two-card deck-of-5 pair `[1, 3]` round-trips, and the
Leduc table is the identity at card 3 of 6. -/
theorem C1_hole_card_indexing_bijection_witness :
    (LutGetterPLO.get_hole_card_2_idx_LUT 52
      (LutGetterPLO.get_idx_2_hole_card_LUT.getD 0 []) = (0 : Int)) ∧
    ((CppLibHoldemLuts.get_idx_2_hole_card_lut 5).getD
      (CppLibHoldemLuts.get_hole_card_2_idx_lut 5 [1, 3]).toNat [] = [1, 3]) ∧
    ((LutGetterLeduc.get_idx_2_hole_card_LUT 6).getD 3 [] = [3]) := by
  have h0 : 0 < LutGetterPLO.get_idx_2_hole_card_LUT.length := by
    rw [LutGetterPLO.get_idx_2_hole_card_LUT, length_combinations, List.length_range]
    exact Nat.choose_pos (by decide)
  refine ⟨C1_hole_card_indexing_bijection.1.1 0 h0, ?_, ?_⟩
  · exact (C1_hole_card_indexing_bijection.2.1 5).2.1 [1, 3] (by decide) (by decide)
      (by decide)
  · exact (C1_hole_card_indexing_bijection.2.2 6 3 (by decide)).1

/-- C2: evidence of the `np.empty` bug in the PLO override of
`get_range_idx_to_private_obs_LUT`.  For the hand with 1D cards 0,1,2,3
(2D cards (0,0), (0,1), (0,2), (0,3)) the base generator (which starts from
`np.zeros`) leaves slot 1 -- a rank slot no hole card writes -- at 0, as the
claim states; the PLO override starts from `np.empty` and whatever the
uninitialized buffer held (here: 7) leaks through at that slot, and likewise
at suit slot 13 in the bucketed branch where the claim requires every suit
bit to be 0. -/
theorem C2_plo_private_obs_uninitialized :
    LutGetterBase.get_range_idx_to_private_obs_row ploRules false
      (fun i => (0, i)) 1 = 0 ∧
    LutGetterPLO.get_range_idx_to_private_obs_row ploRules false
      (fun _ => 7) (fun i => (0, i)) 1 = 7 ∧
    LutGetterPLO.get_range_idx_to_private_obs_row ploRules true
      (fun _ => 7) (fun i => (0, i)) 13 = 7 ∧
    (7 : Int) ≠ 0 := by
  refine ⟨?_, ?_, ?_, by decide⟩
  · decide
  · decide
  · decide

/-- C3: the claim (and the source's own comment "[round] -> number of
possible public boards in that round", line 333) ask for the cumulative
combination count, but `get_n_boards_LUT` computes
`comb(N_RANKS * N_SUITS, cards dealt in transition)`.  At the TURN of the
standard two-card variant the code yields C(52,1) = 52, while the claimed
count is C(50,4) = 230300 (remaining deck after hole cards, cumulative four
board cards) -- and even the loosest reading C(52,4) = 270725 differs. -/
theorem C3_n_boards_transition_not_cumulative :
    Round.TURN ∈ holdemRules.ALL_ROUNDS_LIST ∧
    LutGetterBase.get_n_boards_LUT holdemRules Round.TURN = 52 ∧
    Nat.choose (holdemRules.N_CARDS_IN_DECK - holdemRules.N_HOLE_CARDS)
      (LutGetterBase.get_n_cards_out_at_LUT holdemRules Round.TURN) = 230300 ∧
    Nat.choose holdemRules.N_CARDS_IN_DECK
      (LutGetterBase.get_n_cards_out_at_LUT holdemRules Round.TURN) = 270725 ∧
    LutGetterBase.get_n_boards_LUT holdemRules Round.TURN ≠
      Nat.choose (holdemRules.N_CARDS_IN_DECK - holdemRules.N_HOLE_CARDS)
        (LutGetterBase.get_n_cards_out_at_LUT holdemRules Round.TURN) ∧
    LutGetterBase.get_n_boards_LUT holdemRules Round.TURN ≠
      Nat.choose holdemRules.N_CARDS_IN_DECK
        (LutGetterBase.get_n_cards_out_at_LUT holdemRules Round.TURN) := by
  refine ⟨by decide, by decide, by decide, by decide, by decide, by decide⟩

/-- C3 amended: the board-count table entry for round `r` is the combination
count over the full rank-times-suit deck, choosing the number of cards dealt
in the transition to `r` (not the cumulative count over the remaining deck);
concretely, for the standard two-card variant: 1, C(52,3) = 22100, 52, 52. -/
theorem C3_n_boards_amended :
    (∀ (rules : Rules) (r : Round),
      LutGetterBase.get_n_boards_LUT rules r =
        Nat.choose (rules.N_RANKS * rules.N_SUITS)
          (LutGetterBase.get_n_cards_dealt_in_transition_to_LUT rules r)) ∧
    LutGetterBase.get_n_boards_LUT holdemRules Round.PREFLOP = 1 ∧
    LutGetterBase.get_n_boards_LUT holdemRules Round.FLOP = 22100 ∧
    LutGetterBase.get_n_boards_LUT holdemRules Round.TURN = 52 ∧
    LutGetterBase.get_n_boards_LUT holdemRules Round.RIVER = 52 :=
  ⟨fun _ _ => rfl, by decide, by decide, by decide, by decide⟩

/-- C7: the board-branch table entry for the first round is 0, and for every
later round it is the combination count over the cards remaining after
removing the previous round's board cards and the hole cards, choosing the
cards dealt in the transition. -/
theorem C7_board_branches_closed_form :
    ∀ (rules : Rules) (r : Round),
      LutGetterBase.get_n_board_branches_LUT rules Round.PREFLOP = 0 ∧
      (r ≠ Round.PREFLOP →
        LutGetterBase.get_n_board_branches_LUT rules r =
          Nat.choose
            (rules.N_CARDS_IN_DECK -
              LutGetterBase.get_n_cards_out_at_LUT rules (rules.ROUND_BEFORE r) -
              rules.N_HOLE_CARDS)
            (LutGetterBase.get_n_cards_dealt_in_transition_to_LUT rules r)) := by
  intro rules r
  constructor
  · simp [LutGetterBase.get_n_board_branches_LUT]
  · intro hr
    simp [LutGetterBase.get_n_board_branches_LUT, hr, PokerRange.get_range_size]

/-- Witness for C7: at the TURN of the standard two-card variant the branch
count is C(52 - 3 - 2, 1) = 47. -/
theorem C7_board_branches_closed_form_witness :
    LutGetterBase.get_n_board_branches_LUT holdemRules Round.TURN =
      Nat.choose
        (holdemRules.N_CARDS_IN_DECK -
          LutGetterBase.get_n_cards_out_at_LUT holdemRules
            (holdemRules.ROUND_BEFORE Round.TURN) -
          holdemRules.N_HOLE_CARDS)
        (LutGetterBase.get_n_cards_dealt_in_transition_to_LUT holdemRules
          Round.TURN) ∧
    Nat.choose
        (holdemRules.N_CARDS_IN_DECK -
          LutGetterBase.get_n_cards_out_at_LUT holdemRules
            (holdemRules.ROUND_BEFORE Round.TURN) -
          holdemRules.N_HOLE_CARDS)
        (LutGetterBase.get_n_cards_dealt_in_transition_to_LUT holdemRules
          Round.TURN) = 47 :=
  ⟨(C7_board_branches_closed_form holdemRules Round.TURN).2 (by decide), by decide⟩

/-- C10: for an empty input sequence both batch conversions return the empty
array, whatever the conversion tables are. -/
theorem C10_empty_input_empty_output :
    ∀ (lut_2dcard_2_1dcard : Int → Int → Int)
      (lut_1dcard_2_2dcard : Int → Int × Int),
      LutHolderBase.get_1d_cards lut_2dcard_2_1dcard [] = [] ∧
      LutHolderBase.get_2d_cards lut_1dcard_2_2dcard [] = [] := by
  intro lut2 lut1
  exact ⟨rfl, rfl⟩

theorem getD_map_of_lt {α β : Type} (f : α → β) (l : List α) {i : Nat}
    (hi : i < l.length) (d : α) (d' : β) :
    (l.map f).getD i d' = f (l.getD i d) := by
  rw [List.getD_eq_getElem _ _ (by simpa using hi), List.getD_eq_getElem _ _ hi]
  simp

/-- C5: the batch conversions pass the "not dealt" sentinel through unchanged
(and in particular never index a table with it), while every other entry is
converted through the supplied table; lengths are preserved, so no entry is
dropped or raises. -/
theorem C5_sentinel_passthrough :
    ∀ (lut_2dcard_2_1dcard : Int → Int → Int)
      (lut_1dcard_2_2dcard : Int → Int × Int)
      (cards_2d : List (Int × Int)) (cards_1d : List Int) (i : Nat),
      (LutHolderBase.get_1d_cards lut_2dcard_2_1dcard cards_2d).length =
        cards_2d.length ∧
      (LutHolderBase.get_2d_cards lut_1dcard_2_2dcard cards_1d).length =
        cards_1d.length ∧
      (i < cards_2d.length →
        (cards_2d.getD i (0, 0) = Poker.CARD_NOT_DEALT_TOKEN_2D →
          (LutHolderBase.get_1d_cards lut_2dcard_2_1dcard cards_2d).getD i 0 =
            Poker.CARD_NOT_DEALT_TOKEN_1D) ∧
        ((cards_2d.getD i (0, 0)).1 ≠ Poker.CARD_NOT_DEALT_TOKEN_1D →
          (cards_2d.getD i (0, 0)).2 ≠ Poker.CARD_NOT_DEALT_TOKEN_1D →
          (LutHolderBase.get_1d_cards lut_2dcard_2_1dcard cards_2d).getD i 0 =
            lut_2dcard_2_1dcard (cards_2d.getD i (0, 0)).1
              (cards_2d.getD i (0, 0)).2)) ∧
      (i < cards_1d.length →
        (cards_1d.getD i 0 = Poker.CARD_NOT_DEALT_TOKEN_1D →
          (LutHolderBase.get_2d_cards lut_1dcard_2_2dcard cards_1d).getD i (0, 0) =
            Poker.CARD_NOT_DEALT_TOKEN_2D) ∧
        (cards_1d.getD i 0 ≠ Poker.CARD_NOT_DEALT_TOKEN_1D →
          (LutHolderBase.get_2d_cards lut_1dcard_2_2dcard cards_1d).getD i (0, 0) =
            lut_1dcard_2_2dcard (cards_1d.getD i 0))) := by
  intro lut2 lut1 c2 c1 i
  refine ⟨?_, ?_, ?_, ?_⟩
  · cases c2 with
    | nil => simp [LutHolderBase.get_1d_cards]
    | cons a t => simp [LutHolderBase.get_1d_cards]
  · cases c1 with
    | nil => simp [LutHolderBase.get_2d_cards]
    | cons a t => simp [LutHolderBase.get_2d_cards]
  · intro hi
    cases c2 with
    | nil => simp at hi
    | cons a t =>
      rw [LutHolderBase.get_1d_cards, if_neg (by simp)]
      rw [getD_map_of_lt _ _ hi (0, 0)]
      set card := (a :: t).getD i (0, 0) with hcard
      constructor
      · intro htok
        rw [htok]
        simp [Poker.CARD_NOT_DEALT_TOKEN_2D]
      · intro h1 h2
        simp only [if_neg h1, if_neg h2]
  · intro hi
    cases c1 with
    | nil => simp at hi
    | cons a t =>
      rw [LutHolderBase.get_2d_cards, if_neg (by simp)]
      rw [getD_map_of_lt _ _ hi 0]
      constructor
      · intro htok
        rw [htok]
        simp
      · intro h1
        simp only [if_neg h1]

/-- Witness for C5: a two-element batch holding one sentinel and one real
card; the sentinel passes through and the real card is looked up. -/
theorem C5_sentinel_passthrough_witness :
    ([((3 : Int), (1 : Int)), Poker.CARD_NOT_DEALT_TOKEN_2D].getD 1 (0, 0) =
      Poker.CARD_NOT_DEALT_TOKEN_2D →
      (LutHolderBase.get_1d_cards (fun r s => r * 4 + s)
        [((3 : Int), (1 : Int)), Poker.CARD_NOT_DEALT_TOKEN_2D]).getD 1 0 =
        Poker.CARD_NOT_DEALT_TOKEN_1D) ∧
    (([((3 : Int), (1 : Int)), Poker.CARD_NOT_DEALT_TOKEN_2D].getD 0 (0, 0)).1 ≠
        Poker.CARD_NOT_DEALT_TOKEN_1D →
      ([((3 : Int), (1 : Int)), Poker.CARD_NOT_DEALT_TOKEN_2D].getD 0 (0, 0)).2 ≠
        Poker.CARD_NOT_DEALT_TOKEN_1D →
      (LutHolderBase.get_1d_cards (fun r s => r * 4 + s)
        [((3 : Int), (1 : Int)), Poker.CARD_NOT_DEALT_TOKEN_2D]).getD 0 0 =
        (fun r s : Int => r * 4 + s)
          ([((3 : Int), (1 : Int)), Poker.CARD_NOT_DEALT_TOKEN_2D].getD 0 (0, 0)).1
          ([((3 : Int), (1 : Int)), Poker.CARD_NOT_DEALT_TOKEN_2D].getD 0 (0, 0)).2) :=
  ⟨((C5_sentinel_passthrough (fun r s => r * 4 + s) (fun c => (c / 4, c % 4))
      [((3 : Int), (1 : Int)), Poker.CARD_NOT_DEALT_TOKEN_2D] [] 1).2.2.1
      (by decide)).1,
   ((C5_sentinel_passthrough (fun r s => r * 4 + s) (fun c => (c / 4, c % 4))
      [((3 : Int), (1 : Int)), Poker.CARD_NOT_DEALT_TOKEN_2D] [] 0).2.2.1
      (by decide)).2⟩

/-- C6: the single-card variant's 1D/2D conversions are mutually inverse
total functions on the valid ranges (given the rules-consistency facts that
the deck size is ranks times suits and there is at least one suit). -/
theorem C6_card_conversions_inverse :
    ∀ (rules : Rules), 0 < rules.N_SUITS →
      rules.N_CARDS_IN_DECK = rules.N_RANKS * rules.N_SUITS →
      (∀ c, c < rules.N_CARDS_IN_DECK →
        LutGetterLeduc.get_1d_card rules (LutGetterLeduc.get_2d_card rules c) = c ∧
        (LutGetterLeduc.get_2d_card rules c).1 < rules.N_RANKS ∧
        (LutGetterLeduc.get_2d_card rules c).2 < rules.N_SUITS) ∧
      (∀ r s, r < rules.N_RANKS → s < rules.N_SUITS →
        LutGetterLeduc.get_2d_card rules
          (LutGetterLeduc.get_1d_card rules (r, s)) = (r, s)) := by
  intro rules hS hdeck
  constructor
  · intro c hc
    refine ⟨?_, ?_, ?_⟩
    · simp only [LutGetterLeduc.get_1d_card, LutGetterLeduc.get_2d_card]
      rw [Nat.mul_comm]
      exact Nat.div_add_mod c rules.N_SUITS
    · simp only [LutGetterLeduc.get_2d_card]
      rw [Nat.div_lt_iff_lt_mul hS]
      calc c < rules.N_CARDS_IN_DECK := hc
        _ = rules.N_RANKS * rules.N_SUITS := hdeck
    · exact Nat.mod_lt _ hS
  · intro r s hr hs
    simp only [LutGetterLeduc.get_1d_card, LutGetterLeduc.get_2d_card,
      Prod.mk.injEq]
    constructor
    · rw [Nat.mul_comm r rules.N_SUITS, Nat.mul_add_div hS,
        Nat.div_eq_of_lt hs, Nat.add_zero]
    · rw [Nat.mul_comm r rules.N_SUITS, Nat.mul_add_mod, Nat.mod_eq_of_lt hs]

/-- Witness for C6: deck size 6 (3 ranks, 2 suits); card 5 round-trips and
pair (2, 1) round-trips. -/
theorem C6_card_conversions_inverse_witness :
    LutGetterLeduc.get_1d_card leducRules
      (LutGetterLeduc.get_2d_card leducRules 5) = 5 ∧
    LutGetterLeduc.get_2d_card leducRules
      (LutGetterLeduc.get_1d_card leducRules (2, 1)) = (2, 1) :=
  ⟨((C6_card_conversions_inverse leducRules (by decide) (by decide)).1
      5 (by decide)).1,
   (C6_card_conversions_inverse leducRules (by decide) (by decide)).2
      2 1 (by decide) (by decide)⟩

/-- C8: the single-hole-card indexing is the identity: row `c` of the
idx-to-hole-card table is `[c]`, the hole-card-to-idx table maps `[c]` back
to `c`, and the range size is the deck size (both as the table length and as
the spec's `C(n, 1)`). -/
theorem C8_leduc_identity_indexing :
    ∀ n c, c < n →
      (LutGetterLeduc.get_idx_2_hole_card_LUT n).getD c [] = [c] ∧
      ((LutGetterLeduc.get_hole_card_2_idx_LUT n).getD c []).getD 0 0 = c ∧
      (LutGetterLeduc.get_idx_2_hole_card_LUT n).length = n ∧
      PokerRange.get_range_size 1 n = n := by
  intro n c hc
  have hlen : c < ((List.range n).map (fun c => [c])).length := by simpa using hc
  refine ⟨?_, ?_, ?_, ?_⟩
  · rw [LutGetterLeduc.get_idx_2_hole_card_LUT, List.getD_eq_getElem _ _ hlen]
    simp
  · rw [LutGetterLeduc.get_hole_card_2_idx_LUT, List.getD_eq_getElem _ _ hlen]
    simp
  · simp [LutGetterLeduc.get_idx_2_hole_card_LUT]
  · simp [PokerRange.get_range_size]

/-- Witness for C8: the deck-of-6 scenario at card 5. -/
theorem C8_leduc_identity_indexing_witness :
    (LutGetterLeduc.get_idx_2_hole_card_LUT 6).getD 5 [] = [5] ∧
    PokerRange.get_range_size 1 6 = 6 :=
  ⟨(C8_leduc_identity_indexing 6 5 (by decide)).1,
   (C8_leduc_identity_indexing 6 5 (by decide)).2.2.2⟩

/-- C9: `get_range_idx_from_hole_cards` is invariant under permutation of the
hole cards: the two-card holder canonicalizes with min/max, the four-card
holder sorts the 1D ids before the table lookup. -/
theorem C9_range_idx_permutation_invariant :
    ∀ (lut_2dcard_2_1dcard : Nat → Nat → Nat)
      (lut_hc2idx_2 : Nat → Nat → Int) (lut_hc2idx_4 : List Nat → Int)
      (a b : Nat × Nat) (hc hc' : List (Nat × Nat)),
      LutHolderHoldem.get_range_idx_from_hole_cards lut_2dcard_2_1dcard
        lut_hc2idx_2 (a, b) =
        LutHolderHoldem.get_range_idx_from_hole_cards lut_2dcard_2_1dcard
          lut_hc2idx_2 (b, a) ∧
      (List.Perm hc hc' →
        LutHolderPLO.get_range_idx_from_hole_cards lut_2dcard_2_1dcard
          lut_hc2idx_4 hc =
          LutHolderPLO.get_range_idx_from_hole_cards lut_2dcard_2_1dcard
            lut_hc2idx_4 hc') := by
  intro f g2 g4 a b hc hc'
  constructor
  · simp only [LutHolderHoldem.get_range_idx_from_hole_cards]
    rw [Nat.min_comm, Nat.max_comm]
  · intro hperm
    simp only [LutHolderPLO.get_range_idx_from_hole_cards]
    congr 1
    haveI : IsAntisymm Nat (fun x1 x2 => x1 ≤ x2) :=
      ⟨fun _ _ h1 h2 => Nat.le_antisymm h1 h2⟩
    refine List.eq_of_perm_of_sorted (r := (· ≤ ·)) ?_ ?_ ?_
    · exact (List.perm_insertionSort _ _).trans
        ((hperm.map _).trans (List.perm_insertionSort _ _).symm)
    · exact List.sorted_insertionSort _ _
    · exact List.sorted_insertionSort _ _

/-- Witness for C9: a concrete four-card hand in two different orders gives
the same index, for a concrete conversion table. -/
theorem C9_range_idx_permutation_invariant_witness :
    LutHolderPLO.get_range_idx_from_hole_cards (fun r s => r * 4 + s)
      (fun l => (l.getD 0 0 : Int)) [(0, 0), (0, 1), (2, 3), (1, 2)] =
      LutHolderPLO.get_range_idx_from_hole_cards (fun r s => r * 4 + s)
        (fun l => (l.getD 0 0 : Int)) [(2, 3), (0, 1), (1, 2), (0, 0)] :=
  (C9_range_idx_permutation_invariant (fun r s => r * 4 + s) (fun _ _ => 0)
    (fun l => (l.getD 0 0 : Int)) (0, 0) (0, 0)
    [(0, 0), (0, 1), (2, 3), (1, 2)] [(2, 3), (0, 1), (1, 2), (0, 0)]).2
    (by decide)

theorem map_getD_range {α : Type} (L : List α) (d : α) :
    (List.range L.length).map (fun i => L.getD i d) = L := by
  apply List.ext_getElem (by simp)
  intro i h1 h2
  rw [List.getElem_map, List.getElem_range, List.getD_eq_getElem _ _ h2]

theorem filter_range_getD_length (L : List (List Nat)) (p : List Nat → Bool) :
    ((List.range L.length).filter (fun i => p (L.getD i []))).length =
      L.countP p := by
  have h2 : L.countP p =
      (List.range L.length).countP (fun i => p (L.getD i [])) := by
    conv_lhs => rw [← map_getD_range L []]
    rw [List.countP_map]
    rfl
  rw [h2, List.countP_eq_length_filter]

/-- C4: every card-membership row lists exactly C(deck - 1, hole cards - 1)
RangeIndexes, and each listed RangeIndex's hole cards genuinely contain the
card.  The numpy row width equals that count, so after construction no -2
fill value remains (every slot is overwritten), which is what the source's
`assert not np.any(lut == -2)` checks; for the four-card 52-deck variant the
count is the hardcoded 20825 = C(51, 3). -/
theorem C4_card_membership_rows :
    (∀ n c, c < n →
      (LutGetterHoldem.card_in_what_range_idxs_row n c).length =
        Nat.choose (n - 1) 1 ∧
      (∀ i ∈ LutGetterHoldem.card_in_what_range_idxs_row n c,
        c ∈ (CppLibHoldemLuts.get_idx_2_hole_card_lut n).getD i [])) ∧
    (∀ c, c < 52 →
      (LutGetterPLO.card_in_what_range_idxs_row c).length = Nat.choose 51 3 ∧
      (∀ i ∈ LutGetterPLO.card_in_what_range_idxs_row c,
        c ∈ LutGetterPLO.get_idx_2_hole_card_LUT.getD i [])) ∧
    Nat.choose 51 3 = 20825 := by
  refine ⟨?_, ?_, by decide⟩
  · intro n c hc
    constructor
    · rw [LutGetterHoldem.card_in_what_range_idxs_row,
        CppLibHoldemLuts.get_idx_2_hole_card_lut]
      rw [filter_range_getD_length _ (fun h => decide (c ∈ h))]
      rw [countP_combinations_mem (List.nodup_range n)
        (List.mem_range.mpr hc) (by omega)]
      rw [List.length_range]
    · intro i hi
      have := List.mem_filter.mp hi
      exact of_decide_eq_true this.2
  · intro c hc
    constructor
    · rw [LutGetterPLO.card_in_what_range_idxs_row,
        LutGetterPLO.get_idx_2_hole_card_LUT]
      rw [filter_range_getD_length _ (fun h => decide (c ∈ h))]
      rw [countP_combinations_mem (List.nodup_range 52)
        (List.mem_range.mpr hc) (by omega)]
      rw [List.length_range]
    · intro i hi
      have := List.mem_filter.mp hi
      exact of_decide_eq_true this.2

/-- Witness for C4: the deck-of-5 two-card variant at card 2 has C(4,1) = 4
membership entries, and the PLO row of card 0 has C(51,3) entries. -/
theorem C4_card_membership_rows_witness :
    (LutGetterHoldem.card_in_what_range_idxs_row 5 2).length =
      Nat.choose 4 1 ∧
    (LutGetterPLO.card_in_what_range_idxs_row 0).length = Nat.choose 51 3 :=
  ⟨(C4_card_membership_rows.1 5 2 (by decide)).1,
   (C4_card_membership_rows.2.1 0 (by decide)).1⟩

end PokerLUT
